import Mathlib

/-!
Verification of the LA council scraper core: the agenda item extractor
(`src/parse_agenda.py`) and the cross-meeting aggregator
(`src/aggregate_council_files.py`).

Python strings are modelled as `List Char`; the specific regular expressions
used by the source are modelled as explicit recursive matchers with the same
(backtracking) semantics on the relevant patterns.
-/

/-- Python `\w` word character (ASCII letters, digits, underscore; Unicode
letters also count, matching Python's default for the inputs at hand). -/
def isWordChar (c : Char) : Bool := c.isAlphanum || c == '_'

/-- Python whitespace as relevant here (`str.strip` / `\s`). -/
def isSpaceCh (c : Char) : Bool :=
  c == ' ' || c == '\t' || c == '\n' || c == '\r' || c == '\x0b' || c == '\x0c'

/-- The character class `[A-Z0-9]` of the council-file suffix pattern. -/
def isSufChar (c : Char) : Bool := (65 ≤ c.toNat && c.toNat ≤ 90) || c.isDigit

/-- Python `str.strip()`: drop whitespace from both ends. -/
def strip (l : List Char) : List Char :=
  ((l.dropWhile isSpaceCh).reverse.dropWhile isSpaceCh).reverse

/-- Python `text.split('\n')`. -/
def splitOnNl : List Char → List (List Char)
  | [] => [[]]
  | c :: cs =>
    if c = '\n' then [] :: splitOnNl cs
    else
      match splitOnNl cs with
      | [] => [[c]]
      | l :: ls => (c :: l) :: ls

/-- Python substring containment `needle in hay`. -/
def containsSub (needle : List Char) : List Char → Bool
  | [] => needle.isEmpty
  | c :: cs => needle.isPrefixOf (c :: cs) || containsSub needle cs

/-- Python string `<` (lexicographic by code point). -/
def strLt : List Char → List Char → Bool
  | _, [] => false
  | [], _ :: _ => true
  | a :: as_, b :: bs =>
    if a.toNat = b.toNat then strLt as_ bs else decide (a.toNat < b.toNat)

/-- Python string `<=` (lexicographic by code point). -/
def strLe : List Char → List Char → Bool
  | [], _ => true
  | _ :: _, [] => false
  | a :: as_, b :: bs =>
    if a.toNat = b.toNat then strLe as_ bs else decide (a.toNat < b.toNat)

/-- Head of a list is a word character (false on the empty list); `\b` after a
word character holds exactly when this is false for the remaining text. -/
def headIsWord : List Char → Bool
  | [] => false
  | c :: _ => isWordChar c

/-- The `\b` boundary immediately before a word character: the previous character (if any)
must not be a word character. -/
def boundaryBeforeWord : Option Char → Bool
  | none => true
  | some c => !isWordChar c

/-- One attempt of `\b(\d{2}-\d{4}(?:-[A-Z0-9]+)?)\b` at the current position
(`prev` is the character just before it), with the regex engine's greedy
backtracking on the optional suffix group: the suffix branch succeeds only
when the maximal `[A-Z0-9]` run is nonempty and followed by a non-word
position, otherwise the group is dropped and the bare `\d{2}-\d{4}` must end
at a non-word position.  Models the pattern in
`AgendaParser._extract_council_file` (src/parse_agenda.py:162). -/
def matchCouncilFileAt (prev : Option Char) : List Char → Option (List Char)
  | y1 :: y2 :: d :: z1 :: z2 :: z3 :: z4 :: rest =>
    if boundaryBeforeWord prev && y1.isDigit && y2.isDigit && d == '-'
        && z1.isDigit && z2.isDigit && z3.isDigit && z4.isDigit then
      let base := [y1, y2, d, z1, z2, z3, z4]
      let run := rest.tail.takeWhile isSufChar
      if rest.headD ' ' == '-' && run.length ≥ 1
          && !headIsWord (rest.tail.dropWhile isSufChar) then
        some (base ++ '-' :: run)
      else if !headIsWord rest then some base else none
    else none
  | _ => none

/-- The `re.search` scan: try the council-file pattern at each position, left to
right, returning the first match. -/
def findCouncilFile (prev : Option Char) : List Char → Option (List Char)
  | [] => none
  | c :: cs =>
    match matchCouncilFileAt prev (c :: cs) with
    | some m => some m
    | none => findCouncilFile (some c) cs

/-- Models `AgendaParser._extract_council_file` (src/parse_agenda.py:159-163):
`re.search(r'\b(\d{2}-\d{4}(?:-[A-Z0-9]+)?)\b', text)`, first match or None. -/
def extract_council_file (text : List Char) : Option (List Char) :=
  findCouncilFile none text

/-- One attempt of `\b(CD \d+)\b` at the current position, with greedy `\d+`:
succeeds when at least one digit follows `CD ` and the digit run ends at a
non-word position. -/
def matchDistrictAt (prev : Option Char) : List Char → Option (List Char)
  | 'C' :: 'D' :: ' ' :: rest =>
    if boundaryBeforeWord prev then
      let run := rest.takeWhile Char.isDigit
      if run.length ≥ 1 && !headIsWord (rest.dropWhile Char.isDigit) then
        some ('C' :: 'D' :: ' ' :: run)
      else none
    else none
  | _ => none

/-- The `re.search` scan for the district pattern. -/
def findDistrict (prev : Option Char) : List Char → Option (List Char)
  | [] => none
  | c :: cs =>
    match matchDistrictAt prev (c :: cs) with
    | some m => some m
    | none => findDistrict (some c) cs

/-- Models `AgendaParser._extract_district` (src/parse_agenda.py:165-168):
`re.search(r'\b(CD \d+)\b', text)`, first match or None. -/
def extract_district (text : List Char) : Option (List Char) :=
  findDistrict none text

/-- Tests `re.match(r'^(\d{2}-\d{4}(?:-[A-Z0-9]+)?)$', line)`: the whole line is a
council-file token (src/parse_agenda.py:181). -/
def isCouncilFileLine : List Char → Bool
  | y1 :: y2 :: d :: z1 :: z2 :: z3 :: z4 :: rest =>
    y1.isDigit && y2.isDigit && d == '-'
      && z1.isDigit && z2.isDigit && z3.isDigit && z4.isDigit
      && (rest.isEmpty
          || (rest.headD ' ' == '-' && !rest.tail.isEmpty && rest.tail.all isSufChar))
  | _ => false

/-- Tests `re.match(r'^CD \d+$', line)`: the whole line is a district token
(src/parse_agenda.py:184). -/
def isDistrictLine : List Char → Bool
  | 'C' :: 'D' :: ' ' :: rest => !rest.isEmpty && rest.all Char.isDigit
  | _ => false

/-- The literal phrase tested by `'Recommendation for Council action' in line`
(src/parse_agenda.py:187). -/
def recActionPhrase : List Char := "Recommendation for Council action".data

/-- The loop body of `AgendaParser._extract_title` (src/parse_agenda.py:179-191):
skip council-file lines, district lines and lines containing the
recommendation phrase; return the first remaining line longer than 15
characters. -/
def findGoodTitle : List (List Char) → Option (List Char)
  | [] => none
  | l :: ls =>
    if isCouncilFileLine l then findGoodTitle ls
    else if isDistrictLine l then findGoodTitle ls
    else if containsSub recActionPhrase l then findGoodTitle ls
    else if 15 < l.length then some l
    else findGoodTitle ls

/-- Computes `[l.strip() for l in text.split('\n') if l.strip()]`
(src/parse_agenda.py:172). -/
def procLines (text : List Char) : List (List Char) :=
  ((splitOnNl text).map strip).filter (fun l => !l.isEmpty)

/-- Models `AgendaParser._extract_title` (src/parse_agenda.py:170-194). -/
def extract_title (text : List Char) : Option (List Char) :=
  let lines := procLines text
  match findGoodTitle lines with
  | some t => some t
  | none => lines.head?

/-- Case-insensitive prefix test, as `re.IGNORECASE` folds both sides. -/
def ciIsPrefixOf : List Char → List Char → Bool
  | [], _ => true
  | _ :: _, [] => false
  | p :: ps, c :: cs => (p.toLower == c.toLower) && ciIsPrefixOf ps cs

/-- The literal word opening the recommendation pattern. -/
def recWord : List Char := "Recommendation".data

/-- The lazy group `(.*?)(?=\n\n|\Z)` under `re.DOTALL`: the shortest prefix
after which the text starts with a blank-line gap, or everything if no gap
follows. -/
def captureUntilBlank : List Char → List Char
  | [] => []
  | '\n' :: '\n' :: _ => []
  | c :: cs => c :: captureUntilBlank cs

/-- Models `re.search(r'Recommendation[^:]*:(.*?)(?=\n\n|\Z)', text, IGNORECASE|DOTALL)`
(src/parse_agenda.py:199): scan for `Recommendation` case-insensitively; the
greedy `[^:]*` then consumes exactly up to the first following colon (the
attempt fails, and the scan resumes at the next position, when no colon
follows); the group captures lazily up to `\n\n` or the end. -/
def findRecCapture : List Char → Option (List Char)
  | [] => none
  | c :: cs =>
    if ciIsPrefixOf recWord (c :: cs) then
      match ((c :: cs).drop recWord.length).dropWhile (fun ch => ch != ':') with
      | [] => findRecCapture cs
      | _ :: afterColon => some (captureUntilBlank afterColon)
    else findRecCapture cs

/-- Models `re.sub(r'\s+', ' ', rec)`: collapse whitespace runs to single spaces. -/
def collapseWsAux : Bool → List Char → List Char
  | _, [] => []
  | inRun, c :: cs =>
    if isSpaceCh c then
      if inRun then collapseWsAux true cs else ' ' :: collapseWsAux true cs
    else c :: collapseWsAux false cs

/-- Whitespace-run collapsing applied from a non-run start. -/
def collapseWs (l : List Char) : List Char := collapseWsAux false l

/-- Models `AgendaParser._extract_recommendation` (src/parse_agenda.py:196-205):
match the pattern, strip the capture, collapse whitespace, and return None
for an empty result. -/
def extract_recommendation (text : List Char) : Option (List Char) :=
  match findRecCapture text with
  | none => none
  | some cap =>
    let rec_ := collapseWs (strip cap)
    if rec_.isEmpty then none else some rec_

/-- One hyperlink inside an item cell (`<a href=...>`), as the fields the
parser reads off it. -/
structure LinkEl where
  href : List Char
  text : List Char
deriving DecidableEq

/-- An attachment record as emitted by `AgendaParser._extract_attachments`
and consumed by the aggregator (`text`, `url` keys). -/
structure AttachmentRec where
  text : List Char
  url : List Char
deriving DecidableEq

/-- The item-cell subtree, reduced to the fields the parser reads:
`get_text(separator='\n', strip=True)` and the hyperlinks. -/
structure ItemCellRec where
  rawText : List Char
  links : List LinkEl
deriving DecidableEq

/-- A `data-itemid` element, reduced to the queries `_parse_single_item`
performs on it: attributes and the two class-based child lookups. -/
structure ItemEl where
  item_id : Option (List Char)
  has_attachments_attr : Option (List Char)
  video_location : Option (List Char)
  mig : Option (List Char)
  number_cell : Option (List Char)
  item_cell : Option ItemCellRec
deriving DecidableEq

/-- A parsed agenda item, following agenda_schema.json: optional keys are
`Option` fields (`none` = key absent). -/
structure ItemRec where
  item_id : Option (List Char)
  item_number : List Char
  has_attachments : Bool
  raw_text : List Char
  council_file : Option (List Char)
  district : Option (List Char)
  title : Option (List Char)
  recommendation : Option (List Char)
  video_location : Option (List Char)
  mig : Option (List Char)
  attachments : List AttachmentRec
deriving DecidableEq

/-- Python truthiness gate on an optional string: the parser adds an optional
key only `if value:` — absent and empty both yield an absent key. -/
def truthyOpt : Option (List Char) → Option (List Char)
  | none => none
  | some s => if s.isEmpty then none else some s

/-- Models `AgendaParser._extract_attachments` (src/parse_agenda.py:207-225): keep
every link with `href` of length ≥ 5, defaulting empty link text to
`'Attachment'`. -/
def extractAttachments (cell : ItemCellRec) : List AttachmentRec :=
  cell.links.filterMap (fun lnk =>
    if lnk.href.length < 5 then none
    else some ⟨if lnk.text.isEmpty then "Attachment".data else lnk.text, lnk.href⟩)

/-- Models `AgendaParser._parse_single_item` (src/parse_agenda.py:105-157): returns
None when the element has no `item-cell` child, otherwise builds the record
(with `raw_text` always set and optional keys gated by truthiness). -/
def parseSingleItem (el : ItemEl) : Option ItemRec :=
  match el.item_cell with
  | none => none
  | some cell =>
    let raw_text := cell.rawText
    some {
      item_id := el.item_id
      item_number := el.number_cell.getD []
      has_attachments := (el.has_attachments_attr.getD ("False".data)) = "True".data
      raw_text := raw_text
      council_file := truthyOpt (extract_council_file raw_text)
      district := truthyOpt (extract_district raw_text)
      title := truthyOpt (extract_title raw_text)
      recommendation := truthyOpt (extract_recommendation raw_text)
      video_location := truthyOpt el.video_location
      mig := truthyOpt el.mig
      attachments := extractAttachments cell }

/-- Models `AgendaParser._parse_items_in_section` (src/parse_agenda.py:93-103): parse
each `data-itemid` element, appending only non-None results. -/
def parseItemsInSection (els : List ItemEl) : List ItemRec :=
  els.filterMap parseSingleItem

/-- The literal separator `historyId=`. -/
def hidSep : List Char := "historyId=".data

/-- The remainder after the first occurrence of `sep`, if any (one step of
Python's `str.split`). -/
def firstSplit (sep : List Char) : List Char → Option (List Char)
  | [] => none
  | c :: cs =>
    if sep.isPrefixOf (c :: cs) then some ((c :: cs).drop sep.length)
    else firstSplit sep cs

/-- Iterate `firstSplit hidSep` to exhaustion (fuelled; each step strictly
shortens the list, so `l.length` fuel suffices): the final piece of
`url.split("historyId=")`. -/
def afterLastAux : Nat → List Char → List Char
  | 0, l => l
  | n + 1, l =>
    match firstSplit hidSep l with
    | none => l
    | some r => afterLastAux n r

/-- Computes `url.split("historyId=")[-1]`. -/
def afterLastHid (l : List Char) : List Char := afterLastAux l.length l

/-- Models `extract_history_id_from_url` (src/aggregate_council_files.py:43-47):
if `"historyId=" in url`, everything after the last occurrence, else None. -/
def extract_history_id_from_url (url : List Char) : Option (List Char) :=
  if containsSub hidSep url then some (afterLastHid url) else none

/-- One externally produced PDF summary record (`data/pdf_summaries/*.json`):
self-describing join key, summary text, and processing metadata (the latter is
an opaque JSON subobject, modelled as an opaque string). -/
structure PdfSummary where
  historyId : List Char
  summary : List Char
  processing : List Char
deriving DecidableEq

/-- The loader `load_pdf_summaries` (src/aggregate_council_files.py:26-40) builds a dict
keyed by `historyId`, later records overwriting earlier ones; its lookup is
the last record in load order with the given key. -/
def storeLookup (ss : List PdfSummary) (k : List Char) : Option PdfSummary :=
  ss.reverse.find? (fun r => r.historyId == k)

/-- The summary-store mapping as consumed by the aggregator. -/
abbrev LK : Type := List Char → Option PdfSummary

/-- One element of an aggregate's `appearances` list
(src/aggregate_council_files.py:105-111). -/
structure Appearance where
  meeting_id : Int
  date : List Char
  sectionTitle : List Char
  item_number : List Char
  recommendation : List Char
deriving DecidableEq

/-- One element of an aggregate's `attachments` list
(src/aggregate_council_files.py:121-135); the `summary`/`processing` keys are
present only when enrichment succeeded. -/
structure EnrichedAttachment where
  historyId : List Char
  text : List Char
  url : List Char
  meeting_id : Int
  has_summary : Bool
  summary : Option (List Char)
  processing : Option (List Char)
deriving DecidableEq

/-- The in-progress per-council-file accumulator entry
(src/aggregate_council_files.py:61-69). -/
structure CFEntry where
  council_file : List Char
  title : List Char
  district : List Char
  appearances : List Appearance
  attachments : List EnrichedAttachment
  first_seen : Option (List Char)
  last_seen : Option (List Char)
deriving DecidableEq

/-- The accumulator dict `council_files`, as an insertion-ordered association
list (Python dicts preserve insertion order). -/
abbrev AggMap : Type := List (List Char × CFEntry)

/-- Dict lookup. -/
def lookupAgg (k : List Char) : AggMap → Option CFEntry
  | [] => none
  | p :: ps => if p.1 = k then some p.2 else lookupAgg k ps

/-- Dict store: overwrite in place, or append a new key at the end. -/
def setAgg (k : List Char) (v : CFEntry) : AggMap → AggMap
  | [] => [(k, v)]
  | p :: ps => if p.1 = k then (k, v) :: ps else p :: setAgg k v ps

/-- Models `item.get(key, "")` on an optional string field. -/
def pyStrGet (o : Option (List Char)) : List Char := o.getD []

/-- The `attachment_data` built for one attachment occurrence
(src/aggregate_council_files.py:121-133). -/
def mkEnriched (lk : LK) (meeting_id : Int) (att : AttachmentRec) (hid : List Char) :
    EnrichedAttachment :=
  match lk hid with
  | some s => ⟨hid, att.text, att.url, meeting_id, true, some s.summary, some s.processing⟩
  | none => ⟨hid, att.text, att.url, meeting_id, false, none, none⟩

/-- The inner attachment loop (src/aggregate_council_files.py:114-135): one
entry per attachment whose URL yields a truthy (nonempty) history id. -/
def attachmentEntries (lk : LK) (meeting_id : Int) (item : ItemRec) :
    List EnrichedAttachment :=
  item.attachments.filterMap (fun att =>
    match extract_history_id_from_url att.url with
    | none => none
    | some hid => if hid.isEmpty then none else some (mkEnriched lk meeting_id att hid))

/-- The `appearance` dict appended for one item occurrence
(src/aggregate_council_files.py:105-112). -/
def appearanceOf (meeting_id : Int) (parsed_at sectionTitle : List Char) (item : ItemRec) :
    Appearance :=
  ⟨meeting_id, parsed_at, sectionTitle, item.item_number, pyStrGet item.recommendation⟩

/-- The entry created on first sighting of a council file
(src/aggregate_council_files.py:61-69 and 93-96): identity metadata captured
from the creating item. -/
def newEntry (item : ItemRec) (cf : List Char) : CFEntry :=
  ⟨cf, pyStrGet item.title, pyStrGet item.district, [], [], none, none⟩

/-- The per-item mutation of an existing (or just created) entry
(src/aggregate_council_files.py:98-135): update first/last seen by
string-lexicographic comparison of `parsed_at`, append one appearance, append
the enriched attachments. -/
def updateEntry (lk : LK) (meeting_id : Int) (parsed_at sectionTitle : List Char)
    (item : ItemRec) (e : CFEntry) : CFEntry :=
  { e with
    first_seen := some (match e.first_seen with
      | none => parsed_at
      | some f => if strLt parsed_at f then parsed_at else f)
    last_seen := some (match e.last_seen with
      | none => parsed_at
      | some f => if strLt f parsed_at then parsed_at else f)
    appearances := e.appearances ++ [appearanceOf meeting_id parsed_at sectionTitle item]
    attachments := e.attachments ++ attachmentEntries lk meeting_id item }

/-- The check `council_file = item.get("council_file"); if not council_file: continue`
(src/aggregate_council_files.py:85-88): the key under which an item
contributes, None when absent or empty. -/
def itemKey (item : ItemRec) : Option (List Char) :=
  match item.council_file with
  | none => none
  | some cf => if cf.isEmpty then none else some cf

/-- The body of the item loop (src/aggregate_council_files.py:84-135). -/
def processItem (lk : LK) (meeting_id : Int) (parsed_at sectionTitle : List Char)
    (m : AggMap) (item : ItemRec) : AggMap :=
  match itemKey item with
  | none => m
  | some cf =>
    let e := (lookupAgg cf m).getD (newEntry item cf)
    setAgg cf (updateEntry lk meeting_id parsed_at sectionTitle item e) m

/-- A section of a parsed agenda, as read back by the aggregator. -/
structure SectionRec where
  title : List Char
  items : List ItemRec
deriving DecidableEq

/-- One `agenda_*.json` document as read by the aggregator
(src/aggregate_council_files.py:75-83). -/
structure AgendaDoc where
  meeting_id : Int
  parsed_at : List Char
  sections : List SectionRec
deriving DecidableEq

/-- The section loop (src/aggregate_council_files.py:83-84). -/
def processSection (lk : LK) (meeting_id : Int) (parsed_at : List Char)
    (m : AggMap) (sec : SectionRec) : AggMap :=
  sec.items.foldl (processItem lk meeting_id parsed_at sec.title) m

/-- The meeting loop (src/aggregate_council_files.py:75-135). -/
def processMeeting (lk : LK) (m : AggMap) (ag : AgendaDoc) : AggMap :=
  ag.sections.foldl (processSection lk ag.meeting_id ag.parsed_at) m

/-- Fold all meetings (in sorted filename order, which the caller fixes) into
the accumulator dict. -/
def buildAggMap (lk : LK) (ags : List AgendaDoc) : AggMap :=
  ags.foldl (processMeeting lk) []

/-- Insert into a sorted list before the first element not below the new one. -/
def ordInsert (le : α → α → Bool) (a : α) : List α → List α
  | [] => [a]
  | b :: bs => if le a b then a :: b :: bs else b :: ordInsert le a bs

/-- Stable insertion sort, modelling Python's stable `list.sort(key=...)`
(any two stable sorts of the same list under the same total preorder agree). -/
def stableSort (le : α → α → Bool) : List α → List α
  | [] => []
  | a :: as_ => ordInsert le a (stableSort le as_)

/-- The appearance ordering used by `data["appearances"].sort(key=lambda x: x["date"])`
(src/aggregate_council_files.py:145). -/
def appLe (a b : Appearance) : Bool := strLe a.date b.date

/-- One fully aggregated council-file JSON as written to
`data/councilfiles/{cf}.json` (src/aggregate_council_files.py:143-157):
appearances sorted by date, stats attached. -/
structure FinalAggregate where
  council_file : List Char
  title : List Char
  district : List Char
  appearances : List Appearance
  attachments : List EnrichedAttachment
  first_seen : Option (List Char)
  last_seen : Option (List Char)
  total_appearances : Nat
  total_attachments : Nat
  attachments_with_summaries : Nat
deriving DecidableEq

/-- The save-loop body (src/aggregate_council_files.py:143-152). -/
def finalizeAgg (e : CFEntry) : FinalAggregate :=
  let apps := stableSort appLe e.appearances
  ⟨e.council_file, e.title, e.district, apps, e.attachments, e.first_seen, e.last_seen,
    apps.length, e.attachments.length, (e.attachments.filter (fun a => a.has_summary)).length⟩

/-- Models `aggregate_council_files` (src/aggregate_council_files.py:50-161),
restricted to its pure content: the CouncilFileAggregate records produced
from the given meeting documents and summary-store mapping, in dict insertion
order. -/
def aggregate_council_files (lk : LK) (ags : List AgendaDoc) : List FinalAggregate :=
  (buildAggMap lk ags).map (fun p => finalizeAgg p.2)

/-- One row of the index (src/aggregate_council_files.py:166-174). -/
structure IndexRow where
  council_file : List Char
  title : List Char
  district : List Char
  appearances : Nat
  attachments : Nat
  first_seen : Option (List Char)
  last_seen : Option (List Char)
deriving DecidableEq

/-- Map an aggregate to its index row (src/aggregate_council_files.py:166-174). -/
def toIndexRow (fa : FinalAggregate) : IndexRow :=
  ⟨fa.council_file, fa.title, fa.district, fa.total_appearances, fa.total_attachments,
    fa.first_seen, fa.last_seen⟩

/-- The descending `last_seen` ordering of `index.sort(key=..., reverse=True)`
(src/aggregate_council_files.py:177); `last_seen` is always set for emitted
rows, the `none` default never arises. -/
def rowGe (a b : IndexRow) : Bool := strLe (pyStrGet b.last_seen) (pyStrGet a.last_seen)

/-- The `index.json` payload (src/aggregate_council_files.py:179-185);
`generated_at` is the wall-clock input. -/
structure IndexFile where
  generated_at : List Char
  total_files : Nat
  files : List IndexRow
deriving DecidableEq

/-- The index-building tail of `aggregate_council_files`
(src/aggregate_council_files.py:163-185). -/
def makeIndex (generated_at : List Char) (aggs : List FinalAggregate) : IndexFile :=
  let rows := stableSort rowGe (aggs.map toIndexRow)
  ⟨generated_at, rows.length, rows⟩

/-- The declarative form of the title scan's acceptance test: a processed line
qualifies as the title when it is skipped by none of the three rules and is
longer than the 15-character noise threshold. -/
def goodLine (l : List Char) : Bool :=
  !isCouncilFileLine l && !isDistrictLine l && !containsSub recActionPhrase l
    && decide (15 < l.length)

/-- The item text block of the spec's extraction scenario. -/
def scenarioText : List Char :=
  "25-0600-S126\nCD 10\nHousing Development Agreement\nRecommendation for Council action:\nApprove the agreement.".data

/-- Context to the right of an embedded council-file token under which the
match ends exactly at the token: end of text, or a non-word character that is
not a hyphen immediately followed by an `[A-Z0-9]` character (which could
extend the match). -/
def okPost : List Char → Bool
  | [] => true
  | c :: rest =>
    !isWordChar c && (c != '-' || rest.isEmpty || !isSufChar (rest.headD ' '))

/-- One item occurrence in the aggregator's traversal order, with its
meeting/section context (one iteration of the nested loops,
src/aggregate_council_files.py:75-84). -/
structure Ev where
  mid : Int
  pat : List Char
  secTitle : List Char
  item : ItemRec
deriving DecidableEq

/-- All item occurrences of the given meetings in traversal order. -/
def eventsOf (ags : List AgendaDoc) : List Ev :=
  ags.flatMap (fun ag =>
    ag.sections.flatMap (fun s =>
      s.items.map (fun it => ⟨ag.meeting_id, ag.parsed_at, s.title, it⟩)))

/-- The loop body, as a step over one occurrence. -/
def stepEv (lk : LK) (m : AggMap) (ev : Ev) : AggMap :=
  processItem lk ev.mid ev.pat ev.secTitle m ev.item

/-- The occurrence contributes to the aggregate keyed `k`. -/
def pkEv (k : List Char) (ev : Ev) : Bool := itemKey ev.item == some k

/-- A one-section agenda document, for the concrete instances below. -/
def oneSecDoc (mid : Int) (pat secTitle : String) (items : List ItemRec) : AgendaDoc :=
  ⟨mid, pat.data, [⟨secTitle.data, items⟩]⟩

/-- A minimal agenda item for the concrete instances below. -/
def plainItem (cf title district rec_ : Option String) (atts : List (String × String)) :
    ItemRec :=
  ⟨none, "1".data, false, [], cf.map (fun s => s.data), district.map (fun s => s.data),
    title.map (fun s => s.data), rec_.map (fun s => s.data), none, none,
    atts.map (fun p => ⟨p.1.data, p.2.data⟩)⟩

/-- The empty summary store's mapping. -/
def emptyLK : LK := storeLookup []

/-- Two summary records sharing one history id but with different payloads. -/
def dupSum1 : PdfSummary := ⟨"AB".data, "first summary".data, "proc1".data⟩

/-- See `dupSum1`. -/
def dupSum2 : PdfSummary := ⟨"AB".data, "second summary".data, "proc2".data⟩

/-- Two summary records with distinct history ids. -/
def freeSum1 : PdfSummary := ⟨"AB".data, "first summary".data, "proc1".data⟩

/-- See `freeSum1`. -/
def freeSum2 : PdfSummary := ⟨"CD".data, "other summary".data, "proc2".data⟩

/-- A meeting whose single item carries an attachment joining history id `AB`. -/
def meetingAB : AgendaDoc :=
  oneSecDoc 1 "2024-01-01T00:00:00" "Budget Items"
    [plainItem (some "25-0001") (some "Budget amendment item") none none
      [("Report", "/Portal/ViewAttachment?historyId=AB")]]

/-- First meeting of the first-write-wins instance: title `Foo`, `CD 5`. -/
def meetingFoo : AgendaDoc :=
  oneSecDoc 1 "2024-01-01T00:00:00" "Public Hearing Items"
    [plainItem (some "25-0160-S93") (some "Foo") (some "CD 5") none []]

/-- Second meeting of the first-write-wins instance: blank title, `CD 7`. -/
def meetingBlank : AgendaDoc :=
  oneSecDoc 2 "2024-02-01T00:00:00" "Public Hearing Items"
    [plainItem (some "25-0160-S93") (some "") (some "CD 7") none []]

/-- The first occurrence of `25-0160-S93` in the first-write-wins instance. -/
def evFoo : Ev :=
  ⟨1, "2024-01-01T00:00:00".data, "Public Hearing Items".data,
    plainItem (some "25-0160-S93") (some "Foo") (some "CD 5") none []⟩

/-- A meeting whose single attachment URL ends at `historyId=` (an empty
history id). -/
def meetingEmptyHid : AgendaDoc :=
  oneSecDoc 1 "2024-01-01T00:00:00" "Items"
    [plainItem (some "25-0002") (some "Some long enough title") none none
      [("Report", "/Portal/ViewAttachment?historyId=")]]

/-- Second meeting re-filing the same attachment (same history id `AB`). -/
def meetingAB2 : AgendaDoc :=
  oneSecDoc 2 "2024-02-01T00:00:00" "Budget Items"
    [plainItem (some "25-0001") (some "") none none
      [("Report again", "/Portal/ViewAttachment?historyId=AB")]]

/-- The two occurrences of `25-0001` across `meetingAB` and `meetingAB2`. -/
def evAB1 : Ev :=
  ⟨1, "2024-01-01T00:00:00".data, "Budget Items".data,
    plainItem (some "25-0001") (some "Budget amendment item") none none
      [("Report", "/Portal/ViewAttachment?historyId=AB")]⟩

/-- See `evAB1`. -/
def evAB2 : Ev :=
  ⟨2, "2024-02-01T00:00:00".data, "Budget Items".data,
    plainItem (some "25-0001") (some "") none none
      [("Report again", "/Portal/ViewAttachment?historyId=AB")]⟩

/-- An item element lacking an `item-cell` child. -/
def elNoCell : ItemEl := ⟨some "17".data, none, none, none, none, none⟩

/-- An item element with an `item-cell` child. -/
def elWithCell : ItemEl :=
  ⟨some "18".data, none, none, none, some "3".data,
    some ⟨"25-0600-S126\nCD 10\nHousing Development Agreement".data, []⟩⟩

/-- Three meetings carrying council file `25-0003`, with `parsed_at` dates
given in scrambled order 03-01, 01-15, 02-20. -/
def meetingsScrambled : List AgendaDoc :=
  [oneSecDoc 1 "2024-03-01" "Items" [plainItem (some "25-0003") (some "Some long enough title") none none []],
   oneSecDoc 2 "2024-01-15" "Items" [plainItem (some "25-0003") none none none []],
   oneSecDoc 3 "2024-02-20" "Items" [plainItem (some "25-0003") none none none []]]

/-- A single-meeting input for closed instances over one aggregate. -/
def meetingSingle : AgendaDoc :=
  oneSecDoc 1 "2024-01-01" "Items" [plainItem (some "25-0004") (some "Short ttl") none none []]

/-- The aggregate produced from `meetingSingle` alone. -/
def faSingle : FinalAggregate :=
  ⟨"25-0004".data, "Short ttl".data, [],
    [⟨1, "2024-01-01".data, "Items".data, "1".data, []⟩], [],
    some "2024-01-01".data, some "2024-01-01".data, 1, 0, 0⟩

/-- The store holding exactly `freeSum1`, and the aggregate and enriched
attachment produced from `meetingAB` against it. -/
def storeAB : List PdfSummary := [freeSum1]

/-- See `storeAB`. -/
def attAB : EnrichedAttachment :=
  ⟨"AB".data, "Report".data, "/Portal/ViewAttachment?historyId=AB".data, 1, true,
    some "first summary".data, some "proc1".data⟩

/-- See `storeAB`. -/
def faAB : FinalAggregate :=
  ⟨"25-0001".data, "Budget amendment item".data, [],
    [⟨1, "2024-01-01T00:00:00".data, "Budget Items".data, "1".data, []⟩], [attAB],
    some "2024-01-01T00:00:00".data, some "2024-01-01T00:00:00".data, 1, 1, 1⟩

/-! ### Order lemmas for the modelled Python string comparison and stable sort -/

theorem strLe_total : ∀ s t : List Char, strLe s t = true ∨ strLe t s = true
  | [], _ => Or.inl rfl
  | _ :: _, [] => Or.inr rfl
  | a :: as_, b :: bs => by
    by_cases h : a.toNat = b.toNat
    · rcases strLe_total as_ bs with h1 | h1
      · exact Or.inl (by simp [strLe, h, h1])
      · exact Or.inr (by simp [strLe, h.symm, h1])
    · have hne : ¬ b.toNat = a.toNat := fun hc => h hc.symm
      rcases Nat.lt_or_ge a.toNat b.toNat with hlt | hge
      · exact Or.inl (by simp [strLe, h, hlt])
      · have hlt : b.toNat < a.toNat := lt_of_le_of_ne hge hne
        exact Or.inr (by simp [strLe, hne, hlt])

theorem strLe_trans : ∀ s t u : List Char,
    strLe s t = true → strLe t u = true → strLe s u = true
  | [], _, _, _, _ => rfl
  | a :: as_, [], _, h1, _ => by simp [strLe] at h1
  | _ :: _, _ :: _, [], _, h2 => by simp [strLe] at h2
  | a :: as_, b :: bs, c :: cs, h1, h2 => by
    rw [strLe] at h1 h2 ⊢
    by_cases hab : a.toNat = b.toNat
    · rw [if_pos hab] at h1
      by_cases hbc : b.toNat = c.toNat
      · rw [if_pos hbc] at h2
        rw [if_pos (hab.trans hbc)]
        exact strLe_trans as_ bs cs h1 h2
      · rw [if_neg hbc] at h2
        have hc : b.toNat < c.toNat := of_decide_eq_true h2
        rw [if_neg (by omega), decide_eq_true_eq]
        omega
    · rw [if_neg hab] at h1
      have ha : a.toNat < b.toNat := of_decide_eq_true h1
      by_cases hbc : b.toNat = c.toNat
      · rw [if_neg (by omega), decide_eq_true_eq]
        omega
      · rw [if_neg hbc] at h2
        have hc : b.toNat < c.toNat := of_decide_eq_true h2
        rw [if_neg (by omega), decide_eq_true_eq]
        omega

theorem ordInsert_perm (le : α → α → Bool) (a : α) :
    ∀ l : List α, (ordInsert le a l).Perm (a :: l)
  | [] => List.Perm.refl _
  | b :: bs => by
    rw [ordInsert]
    split
    · exact List.Perm.refl _
    · exact ((ordInsert_perm le a bs).cons b).trans (List.Perm.swap a b bs)

theorem stableSort_perm (le : α → α → Bool) :
    ∀ l : List α, (stableSort le l).Perm l
  | [] => List.Perm.refl _
  | a :: as_ =>
    (ordInsert_perm le a (stableSort le as_)).trans ((stableSort_perm le as_).cons a)

theorem mem_ordInsert (le : α → α → Bool) (a x : α) (l : List α) :
    x ∈ ordInsert le a l ↔ x = a ∨ x ∈ l := by
  rw [(ordInsert_perm le a l).mem_iff, List.mem_cons]

theorem pairwise_ordInsert (le : α → α → Bool)
    (htot : ∀ a b, le a b = true ∨ le b a = true)
    (htrans : ∀ a b c, le a b = true → le b c = true → le a c = true)
    (a : α) : ∀ l : List α, l.Pairwise (fun x y => le x y = true) →
    (ordInsert le a l).Pairwise (fun x y => le x y = true)
  | [], _ => by simp [ordInsert]
  | b :: bs, h => by
    rw [List.pairwise_cons] at h
    obtain ⟨hb, hbs⟩ := h
    rw [ordInsert]
    by_cases hab : le a b = true
    · rw [if_pos hab]
      refine List.Pairwise.cons ?_ (List.Pairwise.cons hb hbs)
      intro x hx
      rcases List.mem_cons.mp hx with rfl | hx
      · exact hab
      · exact htrans a b x hab (hb x hx)
    · rw [if_neg hab]
      have hba : le b a = true := (htot a b).resolve_left hab
      refine List.Pairwise.cons ?_ (pairwise_ordInsert le htot htrans a bs hbs)
      intro x hx
      rcases (mem_ordInsert le a x bs).mp hx with rfl | hx
      · exact hba
      · exact hb x hx

theorem stableSort_pairwise (le : α → α → Bool)
    (htot : ∀ a b, le a b = true ∨ le b a = true)
    (htrans : ∀ a b c, le a b = true → le b c = true → le a c = true) :
    ∀ l : List α, (stableSort le l).Pairwise (fun x y => le x y = true)
  | [] => List.Pairwise.nil
  | a :: as_ =>
    pairwise_ordInsert le htot htrans a (stableSort le as_)
      (stableSort_pairwise le htot htrans as_)

theorem appLe_total : ∀ a b : Appearance, appLe a b = true ∨ appLe b a = true :=
  fun a b => strLe_total a.date b.date

theorem appLe_trans : ∀ a b c : Appearance,
    appLe a b = true → appLe b c = true → appLe a c = true :=
  fun a b c => strLe_trans a.date b.date c.date

theorem rowGe_total : ∀ a b : IndexRow, rowGe a b = true ∨ rowGe b a = true := by
  intro a b
  unfold rowGe
  exact strLe_total _ _

theorem rowGe_trans : ∀ a b c : IndexRow,
    rowGe a b = true → rowGe b c = true → rowGe a c = true := by
  intro a b c h1 h2
  unfold rowGe at h1 h2 ⊢
  exact strLe_trans _ _ _ h2 h1

/-! ### Title extraction: the scan agrees with the declarative first-match form -/

theorem findGoodTitle_eq_find? : ∀ ls : List (List Char),
    findGoodTitle ls = ls.find? goodLine := by
  intro ls
  induction ls with
  | nil => rfl
  | cons l ls ih =>
    rw [findGoodTitle]
    by_cases h1 : isCouncilFileLine l = true
    · rw [if_pos h1, List.find?_cons_of_neg _ (by simp [goodLine, h1]), ih]
    · rw [if_neg h1]
      by_cases h2 : isDistrictLine l = true
      · rw [if_pos h2, List.find?_cons_of_neg _ (by simp [goodLine, h2]), ih]
      · rw [if_neg h2]
        by_cases h3 : containsSub recActionPhrase l = true
        · rw [if_pos h3, List.find?_cons_of_neg _ (by simp [goodLine, h3]), ih]
        · rw [if_neg h3]
          by_cases h4 : 15 < l.length
          · rw [if_pos h4, List.find?_cons_of_pos _ (by simp [goodLine, h1, h2, h3, h4])]
          · rw [if_neg h4, List.find?_cons_of_neg _ (by simp [goodLine, h4]), ih]

/-! ### History-id extraction: split semantics -/

theorem isPrefixOf_eq_true_iff {p l : List Char} :
    p.isPrefixOf l = true ↔ ∃ t, p ++ t = l := List.isPrefixOf_iff_prefix

theorem firstSplit_eq_none_of_not_contains (sep : List Char) :
    ∀ l, containsSub sep l = false → firstSplit sep l = none := by
  intro l
  induction l with
  | nil => intro _; rfl
  | cons c cs ih =>
    intro h
    rw [containsSub, Bool.or_eq_false_iff] at h
    rw [firstSplit, if_neg (by simp [h.1]), ih h.2]

theorem afterLastAux_of_not_contains {l : List Char}
    (h : containsSub hidSep l = false) : ∀ n, afterLastAux n l = l := by
  intro n
  cases n with
  | zero => rfl
  | succ n => rw [afterLastAux, firstSplit_eq_none_of_not_contains hidSep l h]

theorem containsSub_self_append (sep : List Char) :
    ∀ r : List Char, containsSub sep (sep ++ r) = true := by
  intro r
  cases sep with
  | nil =>
    cases r with
    | nil => rfl
    | cons c cs => rw [List.nil_append, containsSub]; simp [List.isPrefixOf]
  | cons s ss =>
    rw [List.cons_append, containsSub]
    have h : (s :: ss).isPrefixOf (s :: (ss ++ r)) = true :=
      isPrefixOf_eq_true_iff.mpr ⟨r, by rw [List.cons_append]⟩
    rw [h, Bool.true_or]

theorem containsSub_append_mid (sep : List Char) :
    ∀ p r : List Char, containsSub sep (p ++ sep ++ r) = true := by
  intro p
  induction p with
  | nil =>
    intro r
    rw [List.nil_append]
    exact containsSub_self_append sep r
  | cons c p ih =>
    intro r
    rw [List.cons_append, List.cons_append, containsSub, ih r, Bool.or_true]

theorem firstSplit_eq_some_char (sep : List Char) :
    ∀ l r : List Char, firstSplit sep l = some r →
    ∃ a, l = a ++ sep ++ r ∧ ∀ a' r', l = a' ++ sep ++ r' → a.length ≤ a'.length := by
  intro l
  induction l with
  | nil => intro r h; simp [firstSplit] at h
  | cons c cs ih =>
    intro r h
    rw [firstSplit] at h
    by_cases hp : sep.isPrefixOf (c :: cs) = true
    · rw [if_pos hp] at h
      obtain ⟨t, ht⟩ := isPrefixOf_eq_true_iff.mp hp
      injection h with h
      refine ⟨[], ?_, fun a' r' _ => Nat.zero_le _⟩
      rw [List.nil_append, ← h, ← ht, List.drop_left]
    · rw [if_neg hp] at h
      obtain ⟨a, ha, hmin⟩ := ih r h
      refine ⟨c :: a, ?_, ?_⟩
      · rw [List.cons_append, List.cons_append, ha]
      · intro a' r' he
        cases a' with
        | nil =>
          exfalso
          apply hp
          rw [List.nil_append] at he
          exact isPrefixOf_eq_true_iff.mpr ⟨r', by rw [he]⟩
        | cons a0 a1 =>
          rw [List.cons_append, List.cons_append] at he
          injection he with _ he
          exact Nat.succ_le_succ (hmin a1 r' he)

theorem hidSep_length : hidSep.length = 10 := by decide

theorem hidSep_no_border : ∀ d : Nat, d < 10 → 1 ≤ d →
    hidSep.take (10 - d) ≠ hidSep.drop d := by decide

theorem not_contains_of_firstSplit_eq_none (sep : List Char) (hne : sep.isEmpty = false) :
    ∀ l, firstSplit sep l = none → containsSub sep l = false := by
  intro l
  induction l with
  | nil => intro _; exact hne
  | cons c cs ih =>
    intro h
    rw [firstSplit] at h
    by_cases hp : sep.isPrefixOf (c :: cs) = true
    · rw [if_pos hp] at h; cases h
    · rw [if_neg hp] at h
      rw [containsSub, Bool.or_eq_false_iff]
      refine ⟨?_, ih h⟩
      simp only [Bool.not_eq_true] at hp
      exact hp

theorem afterLastAux_split : ∀ n : Nat, ∀ p X : List Char,
    containsSub hidSep X = false → (p ++ hidSep ++ X).length ≤ n →
    afterLastAux n (p ++ hidSep ++ X) = X := by
  intro n
  induction n with
  | zero =>
    intro p X _ hlen
    exfalso
    simp [List.length_append, hidSep_length] at hlen
  | succ n ih =>
    intro p X hX hlen
    simp only [List.length_append, hidSep_length] at hlen
    have hc : containsSub hidSep (p ++ hidSep ++ X) = true := containsSub_append_mid hidSep p X
    obtain ⟨r, hr⟩ : ∃ r, firstSplit hidSep (p ++ hidSep ++ X) = some r := by
      cases hfs : firstSplit hidSep (p ++ hidSep ++ X) with
      | none =>
        have hnc := not_contains_of_firstSplit_eq_none hidSep (by decide) _ hfs
        rw [hnc] at hc; cases hc
      | some r => exact ⟨r, rfl⟩
    rw [afterLastAux, hr]
    obtain ⟨a, ha, hmin⟩ := firstSplit_eq_some_char hidSep _ r hr
    have hale : a.length ≤ p.length := hmin p X rfl
    have hrlen : r.length + a.length + 10 = p.length + 10 + X.length := by
      have hl := congrArg List.length ha
      simp only [List.length_append, hidSep_length] at hl
      omega
    by_cases h1 : a.length = p.length
    · have hinj := List.append_inj ha (by simp [List.length_append, h1])
      rw [← hinj.2]
      exact afterLastAux_of_not_contains hX n
    · by_cases h2 : a.length + 10 ≤ p.length
      · have h3 : ((a ++ hidSep) ++ r).drop (a ++ hidSep).length = r := List.drop_left _ _
        rw [← ha] at h3
        have h4 : ((p ++ hidSep) ++ X).drop (a ++ hidSep).length
            = (p.drop (a.length + 10) ++ hidSep) ++ X := by
          rw [List.drop_append_of_le_length
            (by simp [List.length_append, hidSep_length]; omega)]
          rw [List.drop_append_of_le_length
            (by simp [List.length_append, hidSep_length]; omega)]
          congr 2
          simp [List.length_append, hidSep_length]
        rw [h4] at h3
        rw [← h3]
        apply ih
        · exact hX
        · have hl := congrArg List.length h3
          simp only [List.length_append, hidSep_length] at hl ⊢
          omega
      · have hd1 : 1 ≤ p.length - a.length := by omega
        have hd9 : p.length - a.length < 10 := by omega
        have e1 : (p ++ hidSep ++ X).drop a.length = hidSep ++ r := by
          rw [ha, List.append_assoc, List.drop_left]
        have e2 : (p ++ hidSep ++ X).drop p.length = hidSep ++ X := by
          rw [List.append_assoc, List.drop_left]
        have e3 : hidSep ++ X = hidSep.drop (p.length - a.length) ++ r := by
          have e5 : ((p ++ hidSep ++ X).drop a.length).drop (p.length - a.length)
              = (p ++ hidSep ++ X).drop p.length := by
            rw [List.drop_drop]
            congr 1
            omega
          rw [e2, e1] at e5
          rw [← e5]
          rw [List.drop_append_of_le_length (by rw [hidSep_length]; omega)]
        have e4 : hidSep.take (10 - (p.length - a.length))
            = hidSep.drop (p.length - a.length) := by
          have t1 : (hidSep ++ X).take (10 - (p.length - a.length))
              = hidSep.take (10 - (p.length - a.length)) :=
            List.take_append_of_le_length (by rw [hidSep_length]; omega)
          have t2 : (hidSep.drop (p.length - a.length) ++ r).take (10 - (p.length - a.length))
              = hidSep.drop (p.length - a.length) := by
            have hl : (hidSep.drop (p.length - a.length)).length
                = 10 - (p.length - a.length) := by
              rw [List.length_drop, hidSep_length]
            rw [← hl, List.take_left]
          rw [e3, t2] at t1
          exact t1.symm
        exact absurd e4 (hidSep_no_border (p.length - a.length) hd9 hd1)

/-- C1: title extraction scans the block's processed (stripped, non-empty)
lines in order, skipping council-file lines, district lines and lines
containing the procedural phrase, and returns the first remaining line longer
than the 15-character threshold, falling back to the first processed line;
and on the section-8 scenario input the extractors yield
council_file `25-0600-S126`, district `CD 10`,
title `Housing Development Agreement`, recommendation
`Approve the agreement.`. -/
theorem C1_title_extraction :
    (∀ text : List Char,
      extract_title text
        = ((procLines text).find? goodLine).orElse (fun _ => (procLines text).head?))
    ∧ extract_council_file scenarioText = some "25-0600-S126".data
    ∧ extract_district scenarioText = some "CD 10".data
    ∧ extract_title scenarioText = some "Housing Development Agreement".data
    ∧ extract_recommendation scenarioText = some "Approve the agreement.".data := by
  refine ⟨?_, by decide, by decide, by decide, by decide⟩
  intro text
  simp only [extract_title]
  rw [findGoodTitle_eq_find?]
  cases (procLines text).find? goodLine <;> rfl

/-- C5: `extract_history_id_from_url` returns exactly the trailing token after
the literal substring `historyId=` (everything after its last occurrence; for
a token that does not itself contain the separator, exactly that token) and
returns none when the URL does not contain the substring; it is a total
function. -/
theorem C5_extract_history_id :
    (∀ pre X : List Char, containsSub hidSep X = false →
      extract_history_id_from_url (pre ++ hidSep ++ X) = some X) ∧
    (∀ url : List Char, containsSub hidSep url = false →
      extract_history_id_from_url url = none) := by
  constructor
  · intro pre X hX
    rw [extract_history_id_from_url, if_pos (containsSub_append_mid hidSep pre X)]
    rw [afterLastHid, afterLastAux_split _ pre X hX (Nat.le_refl _)]
  · intro url h
    rw [extract_history_id_from_url, if_neg (by simp [h])]

/-- Witness for C5 at the concrete attachment URL of the spec's scenario. -/
theorem C5_witness :
    extract_history_id_from_url ("/Portal/ViewAttachment?".data ++ hidSep ++ "abc-123".data)
        = some "abc-123".data
    ∧ extract_history_id_from_url "/Portal/ViewAttachment".data = none :=
  ⟨C5_extract_history_id.1 "/Portal/ViewAttachment?".data "abc-123".data (by decide),
    C5_extract_history_id.2 "/Portal/ViewAttachment".data (by decide)⟩

/-! ### Council-file token matching: embedding lemmas -/

theorem isSufChar_isWord {c : Char} (h : isSufChar c = true) : isWordChar c = true := by
  rw [isSufChar, Bool.or_eq_true] at h
  rcases h with h | h
  · have hu : c.isUpper = true := by
      simp only [Bool.and_eq_true, decide_eq_true_eq] at h
      simp only [Char.isUpper, Bool.and_eq_true, decide_eq_true_eq]
      exact ⟨h.1, h.2⟩
    simp [isWordChar, Char.isAlphanum, Char.isAlpha, hu]
  · simp [isWordChar, Char.isAlphanum, h]

theorem isDigit_isWord {c : Char} (h : c.isDigit = true) : isWordChar c = true := by
  simp [isWordChar, Char.isAlphanum, h]

theorem not_suf_of_not_word {c : Char} (h : isWordChar c = false) : isSufChar c = false := by
  cases hs : isSufChar c
  · rfl
  · rw [isSufChar_isWord hs] at h; cases h

theorem not_digit_of_not_word {c : Char} (h : isWordChar c = false) : c.isDigit = false := by
  cases hd : c.isDigit
  · rfl
  · rw [isDigit_isWord hd] at h; cases h

theorem takeWhile_append_of_all (p : α → Bool) :
    ∀ s t : List α, s.all p = true → (s ++ t).takeWhile p = s ++ t.takeWhile p := by
  intro s
  induction s with
  | nil => intro t _; rfl
  | cons a s ih =>
    intro t h
    rw [List.all_cons, Bool.and_eq_true] at h
    rw [List.cons_append, List.takeWhile_cons_of_pos h.1, ih t h.2, List.cons_append]

theorem dropWhile_append_of_all (p : α → Bool) :
    ∀ s t : List α, s.all p = true → (s ++ t).dropWhile p = t.dropWhile p := by
  intro s
  induction s with
  | nil => intro t _; rfl
  | cons a s ih =>
    intro t h
    rw [List.all_cons, Bool.and_eq_true] at h
    rw [List.cons_append, List.dropWhile_cons_of_pos h.1, ih t h.2]

theorem takeWhile_suf_nil {post : List Char} (h : headIsWord post = false) :
    post.takeWhile isSufChar = [] ∧ post.dropWhile isSufChar = post := by
  cases post with
  | nil => exact ⟨rfl, rfl⟩
  | cons c cs =>
    have hs : isSufChar c = false := not_suf_of_not_word (by simpa [headIsWord] using h)
    exact ⟨List.takeWhile_cons_of_neg (by simp [hs]), List.dropWhile_cons_of_neg (by simp [hs])⟩

theorem okPost_head {post : List Char} (h : okPost post = true) : headIsWord post = false := by
  cases post with
  | nil => rfl
  | cons c cs =>
    rw [okPost, Bool.and_eq_true] at h
    simpa [headIsWord] using h.1

theorem matchCouncilFileAt_none_of_head {c : Char} (prev : Option Char) (cs : List Char)
    (hc : isWordChar c = false) : matchCouncilFileAt prev (c :: cs) = none := by
  have hd : c.isDigit = false := not_digit_of_not_word hc
  rcases cs with _ | ⟨b, _ | ⟨d, _ | ⟨z1, _ | ⟨z2, _ | ⟨z3, _ | ⟨z4, rest⟩⟩⟩⟩⟩⟩ <;>
    simp [matchCouncilFileAt, hd]

theorem matchCouncilFileAt_token (prev : Option Char) (X post : List Char)
    (hb : boundaryBeforeWord prev = true) (hX : isCouncilFileLine X = true)
    (hp : okPost post = true) : matchCouncilFileAt prev (X ++ post) = some X := by
  rcases X with _ | ⟨y1, _ | ⟨y2, _ | ⟨d, _ | ⟨z1, _ | ⟨z2, _ | ⟨z3, _ | ⟨z4, rest⟩⟩⟩⟩⟩⟩⟩
  case nil => simp [isCouncilFileLine] at hX
  case cons.nil => simp [isCouncilFileLine] at hX
  case cons.cons.nil => simp [isCouncilFileLine] at hX
  case cons.cons.cons.nil => simp [isCouncilFileLine] at hX
  case cons.cons.cons.cons.nil => simp [isCouncilFileLine] at hX
  case cons.cons.cons.cons.cons.nil => simp [isCouncilFileLine] at hX
  case cons.cons.cons.cons.cons.cons.nil => simp [isCouncilFileLine] at hX
  rw [isCouncilFileLine] at hX
  rw [Bool.and_eq_true] at hX; obtain ⟨hX, htail⟩ := hX
  rw [Bool.and_eq_true] at hX; obtain ⟨hX, hz4⟩ := hX
  rw [Bool.and_eq_true] at hX; obtain ⟨hX, hz3⟩ := hX
  rw [Bool.and_eq_true] at hX; obtain ⟨hX, hz2⟩ := hX
  rw [Bool.and_eq_true] at hX; obtain ⟨hX, hz1⟩ := hX
  rw [Bool.and_eq_true] at hX; obtain ⟨hy1y2, hdEq⟩ := hX
  rw [Bool.and_eq_true] at hy1y2; obtain ⟨hy1, hy2⟩ := hy1y2
  have hd : d = '-' := by simpa using hdEq
  subst hd
  have hpw : headIsWord post = false := okPost_head hp
  simp only [List.cons_append]
  rw [matchCouncilFileAt]
  rw [if_pos (by simp [hb, hy1, hy2, hz1, hz2, hz3, hz4])]
  rw [Bool.or_eq_true] at htail
  rcases htail with hre | hrest
  · -- rest is empty: the bare token, followed only by okPost context
    have hre : rest = [] := by simpa [List.isEmpty_iff] using hre
    subst hre
    rw [List.nil_append]
    cases post with
    | nil => rw [if_neg (by simp), if_pos (by simp [headIsWord])]
    | cons c ps =>
      rw [okPost, Bool.and_eq_true] at hp
      obtain ⟨hcw, hdash⟩ := hp
      by_cases hc : c = '-'
      · subst hc
        have hps : ps.takeWhile isSufChar = [] := by
          rw [Bool.or_eq_true, Bool.or_eq_true] at hdash
          rcases hdash with (hcne | hemp) | hnsuf
          · simp at hcne
          · rw [(by simpa [List.isEmpty_iff] using hemp : ps = [])]; rfl
          · cases ps with
            | nil => rfl
            | cons q qs =>
              simp only [List.headD_cons] at hnsuf
              exact List.takeWhile_cons_of_neg (by simp at hnsuf; simp [hnsuf])
        rw [if_neg (by simp [List.tail_cons, hps]),
          if_pos (by simp only [headIsWord]; decide)]
      · rw [if_neg (by simp [List.headD_cons, hc]),
          if_pos (by simp only [headIsWord] at hpw ⊢; simp [hpw])]
  · -- rest carries the suffix
    rw [Bool.and_eq_true] at hrest; obtain ⟨hrest, hall⟩ := hrest
    rw [Bool.and_eq_true] at hrest; obtain ⟨hr0, hne⟩ := hrest
    cases rest with
    | nil => simp at hr0
    | cons r0 s =>
      simp only [List.headD_cons] at hr0
      have hr0 : r0 = '-' := by simpa using hr0
      subst hr0
      simp only [List.tail_cons, List.all_eq_true] at hall hne ⊢
      have hs_all : s.all isSufChar = true := by
        rw [List.all_eq_true]; exact hall
      rw [List.cons_append]
      have htw : (s ++ post).takeWhile isSufChar = s := by
        rw [takeWhile_append_of_all isSufChar s post hs_all, (takeWhile_suf_nil hpw).1,
          List.append_nil]
      have hdw : (s ++ post).dropWhile isSufChar = post := by
        rw [dropWhile_append_of_all isSufChar s post hs_all, (takeWhile_suf_nil hpw).2]
      have hsne : s ≠ [] := by simpa [List.isEmpty_iff] using hne
      rw [if_pos ?_]
      · simp [htw]
      · simp only [List.headD_cons, List.tail_cons, htw, hdw]
        have hlen : 0 < s.length := List.length_pos.mpr hsne
        simp [hpw]
        omega

theorem findCouncilFile_pre : ∀ (pre : List Char) (prev : Option Char) (X post : List Char),
    pre.all (fun c => !isWordChar c) = true → boundaryBeforeWord prev = true →
    isCouncilFileLine X = true → okPost post = true →
    findCouncilFile prev (pre ++ X ++ post) = some X := by
  intro pre
  induction pre with
  | nil =>
    intro prev X post _ hb hX hp
    rw [List.nil_append]
    obtain ⟨x0, xs, hx⟩ : ∃ x0 xs, X = x0 :: xs := by
      cases X with
      | nil => simp [isCouncilFileLine] at hX
      | cons a as_ => exact ⟨a, as_, rfl⟩
    have hm := matchCouncilFileAt_token prev X post hb hX hp
    rw [hx] at hm ⊢
    rw [List.cons_append] at hm ⊢
    rw [findCouncilFile, hm]
  | cons c pre ih =>
    intro prev X post hall hb hX hp
    rw [List.all_cons, Bool.and_eq_true] at hall
    have hcw : isWordChar c = false := by simpa using hall.1
    rw [List.append_assoc, List.cons_append, findCouncilFile,
      matchCouncilFileAt_none_of_head prev _ hcw]
    rw [← List.append_assoc]
    exact ih (some c) X post hall.2 (by simp [boundaryBeforeWord, hcw]) hX hp

/-- C6 (amended): `extract_council_file` returns the first whole-word match of
`YY-NNNN` with an optional hyphen-and-`[A-Z0-9]`-suffix; in particular, a
valid token preceded only by non-word characters and followed by end-of-text
or by a non-word character that cannot extend the match is returned exactly. -/
theorem C6_extract_file_number (pre X post : List Char)
    (hpre : pre.all (fun c => !isWordChar c) = true)
    (hX : isCouncilFileLine X = true) (hpost : okPost post = true) :
    extract_council_file (pre ++ X ++ post) = some X :=
  findCouncilFile_pre pre none X post hpre rfl hX hpost

/-- Witness for C6 (amended) on the spec's example token `25-0160-S93`
embedded in whole-word context. -/
theorem C6_witness :
    extract_council_file (" ".data ++ "25-0160-S93".data ++ ", x".data)
      = some "25-0160-S93".data :=
  C6_extract_file_number " ".data "25-0160-S93".data ", x".data (by decide) (by decide)
    (by decide)

/-- Counterexample to C6 as stated: a valid token embedded in arbitrary
surrounding text is not always returned — an earlier match wins, and a
lowercase (alphanumeric but not `[A-Z0-9]`) suffix is not part of the match. -/
theorem C6_counterexample :
    extract_council_file "11-1111 25-0160-S93".data = some "11-1111".data
    ∧ extract_council_file "25-0160-s93".data = some "25-0160".data := by
  exact ⟨by decide, by decide⟩

/-- C7 (amended): every item element with an `item-cell` child produces
exactly one record, with `raw_text` always populated from the cell text; an
element lacking an `item-cell` yields no record (it is dropped, and a section
keeps exactly the records of its elements with a cell). -/
theorem C7_no_item_dropped :
    (∀ (el : ItemEl) (cell : ItemCellRec), el.item_cell = some cell →
      ∃ rec_, parseSingleItem el = some rec_ ∧ rec_.raw_text = cell.rawText)
    ∧ (∀ el : ItemEl, el.item_cell = none → parseSingleItem el = none)
    ∧ (∀ els : List ItemEl,
        (parseItemsInSection els).length
          = (els.filter (fun el => el.item_cell.isSome)).length) := by
  refine ⟨?_, ?_, ?_⟩
  · intro el cell h
    rw [parseSingleItem, h]
    exact ⟨_, rfl, rfl⟩
  · intro el h
    rw [parseSingleItem, h]
  · intro els
    induction els with
    | nil => rfl
    | cons el els ih =>
      simp only [parseItemsInSection] at ih ⊢
      cases h : el.item_cell with
      | none =>
        rw [List.filterMap_cons, List.filter_cons, parseSingleItem, h]
        simp [h, ih]
      | some cell =>
        rw [List.filterMap_cons, List.filter_cons, parseSingleItem, h]
        simp [h, ih]

/-- Counterexample to C7 as stated: a `data-itemid` element carrying no
`item-cell` child yields no record at all — the extractor drops it outright. -/
theorem C7_counterexample :
    parseSingleItem elNoCell = none ∧ parseItemsInSection [elNoCell] = [] :=
  ⟨rfl, rfl⟩

/-- Witness for C7 (amended) on a concrete element with an item cell. -/
theorem C7_witness :
    ∃ rec_, parseSingleItem elWithCell = some rec_
      ∧ rec_.raw_text = "25-0600-S126\nCD 10\nHousing Development Agreement".data :=
  C7_no_item_dropped.1 elWithCell
    ⟨"25-0600-S126\nCD 10\nHousing Development Agreement".data, []⟩ (by decide)

/-- C9: the Index Builder maps every aggregate to its summary row (the emitted
rows are a permutation of the per-aggregate rows), sorts them descending by
`last_seen`, sets `total_files` to the row count, and an empty set of meetings
yields an empty index with `total_files = 0`, not an error. -/
theorem C9_index_builder :
    (∀ (gen : List Char) (aggs : List FinalAggregate),
      (makeIndex gen aggs).files.Pairwise (fun a b => rowGe a b = true))
    ∧ (∀ (gen : List Char) (aggs : List FinalAggregate),
        ((makeIndex gen aggs).files).Perm (aggs.map toIndexRow))
    ∧ (∀ (gen : List Char) (aggs : List FinalAggregate),
        (makeIndex gen aggs).total_files = (makeIndex gen aggs).files.length)
    ∧ (∀ (lk : LK) (gen : List Char), aggregate_council_files lk [] = []
        ∧ makeIndex gen (aggregate_council_files lk []) = ⟨gen, 0, []⟩) := by
  refine ⟨?_, ?_, ?_, ?_⟩
  · intro gen aggs
    exact stableSort_pairwise rowGe rowGe_total rowGe_trans _
  · intro gen aggs
    exact stableSort_perm rowGe _
  · intro gen aggs
    rfl
  · intro lk gen
    exact ⟨rfl, rfl⟩

/-- C8: every emitted aggregate's appearances list is sorted ascending by
date, and on the three-meeting instance with dates supplied in the scrambled
order 03-01, 01-15, 02-20 the aggregate's appearance dates come out as
01-15, 02-20, 03-01. -/
theorem C8_timeline_ordering :
    (∀ (lk : LK) (ags : List AgendaDoc) (fa : FinalAggregate),
      fa ∈ aggregate_council_files lk ags →
      fa.appearances.Pairwise (fun a b => appLe a b = true))
    ∧ ((aggregate_council_files emptyLK meetingsScrambled).map
        (fun fa => fa.appearances.map (fun a => a.date)))
      = [["2024-01-15".data, "2024-02-20".data, "2024-03-01".data]] := by
  constructor
  · intro lk ags fa hfa
    rw [aggregate_council_files] at hfa
    obtain ⟨p, _, hp⟩ := List.mem_map.mp hfa
    rw [← hp]
    exact stableSort_pairwise appLe appLe_total appLe_trans _
  · decide

/-- Witness for C8's sortedness statement at a concrete aggregate. -/
theorem C8_witness :
    faSingle.appearances.Pairwise (fun a b => appLe a b = true) :=
  C8_timeline_ordering.1 emptyLK [meetingSingle] faSingle (by decide)

/-! ### The aggregator fold as a flat fold over item occurrences -/

theorem foldl_flatMap (f : β → α → β) (g : γ → List α) :
    ∀ (l : List γ) (init : β),
    (l.flatMap g).foldl f init = l.foldl (fun b c => (g c).foldl f b) init := by
  intro l
  induction l with
  | nil => intro init; rfl
  | cons c l ih =>
    intro init
    rw [List.flatMap_cons, List.foldl_append, ih, List.foldl_cons]

theorem processSection_eq (lk : LK) (mid : Int) (pat : List Char) (s : SectionRec)
    (m : AggMap) :
    processSection lk mid pat m s
      = (s.items.map (fun it => (⟨mid, pat, s.title, it⟩ : Ev))).foldl (stepEv lk) m := by
  rw [processSection, List.foldl_map]
  rfl

theorem processMeeting_eq (lk : LK) (ag : AgendaDoc) (m : AggMap) :
    processMeeting lk m ag
      = (ag.sections.flatMap (fun s =>
          s.items.map (fun it => (⟨ag.meeting_id, ag.parsed_at, s.title, it⟩ : Ev)))).foldl
          (stepEv lk) m := by
  rw [processMeeting, foldl_flatMap]
  congr 1
  funext b s
  rw [processSection_eq]

theorem buildAggMap_eq (lk : LK) (ags : List AgendaDoc) :
    buildAggMap lk ags = (eventsOf ags).foldl (stepEv lk) [] := by
  rw [buildAggMap, eventsOf, foldl_flatMap]
  congr 1
  funext m ag
  rw [processMeeting_eq]

/-! ### Dict (association list) lemmas -/

theorem lookupAgg_setAgg_self (k : List Char) (v : CFEntry) :
    ∀ m : AggMap, lookupAgg k (setAgg k v m) = some v := by
  intro m
  induction m with
  | nil => simp [setAgg, lookupAgg]
  | cons p ps ih =>
    rw [setAgg]
    by_cases h : p.1 = k
    · rw [if_pos h, lookupAgg, if_pos rfl]
    · rw [if_neg h, lookupAgg, if_neg h, ih]

theorem lookupAgg_setAgg_other (k k' : List Char) (v : CFEntry) (hne : k' ≠ k) :
    ∀ m : AggMap, lookupAgg k (setAgg k' v m) = lookupAgg k m := by
  intro m
  induction m with
  | nil => simp [setAgg, lookupAgg, hne]
  | cons p ps ih =>
    rw [setAgg]
    by_cases h : p.1 = k'
    · rw [if_pos h, lookupAgg, lookupAgg, if_neg hne, if_neg (by rw [h]; exact hne)]
    · rw [if_neg h, lookupAgg, lookupAgg, ih]

theorem lookupAgg_mem (k : List Char) :
    ∀ (m : AggMap) (e : CFEntry), lookupAgg k m = some e → (k, e) ∈ m := by
  intro m
  induction m with
  | nil => intro e h; cases h
  | cons p ps ih =>
    intro e h
    rw [lookupAgg] at h
    by_cases hp : p.1 = k
    · rw [if_pos hp] at h
      injection h with h
      have hpe : p = (k, e) := by
        calc p = (p.1, p.2) := rfl
          _ = (k, e) := by rw [hp, h]
      rw [← hpe]
      exact List.mem_cons_self p ps
    · rw [if_neg hp] at h
      exact List.mem_cons_of_mem p (ih e h)

theorem mem_setAgg (k : List Char) (v : CFEntry) :
    ∀ (m : AggMap) (q : List Char × CFEntry), q ∈ setAgg k v m → q = (k, v) ∨ q ∈ m := by
  intro m
  induction m with
  | nil =>
    intro q hq
    rw [setAgg] at hq
    rcases List.mem_cons.mp hq with h | h
    · exact Or.inl h
    · cases h
  | cons p ps ih =>
    intro q hq
    rw [setAgg] at hq
    by_cases h : p.1 = k
    · rw [if_pos h] at hq
      rcases List.mem_cons.mp hq with h1 | h1
      · exact Or.inl h1
      · exact Or.inr (List.mem_cons_of_mem p h1)
    · rw [if_neg h] at hq
      rcases List.mem_cons.mp hq with h1 | h1
      · exact Or.inr (h1 ▸ List.mem_cons_self p ps)
      · rcases ih q h1 with h2 | h2
        · exact Or.inl h2
        · exact Or.inr (List.mem_cons_of_mem p h2)

/-! ### Master fold lemmas: how one aggregate entry evolves over occurrences -/

theorem foldl_step_preserve (lk : LK) (k : List Char) :
    ∀ (evs : List Ev) (m : AggMap) (e : CFEntry), lookupAgg k m = some e →
    ∃ e2, lookupAgg k (evs.foldl (stepEv lk) m) = some e2
      ∧ e2.council_file = e.council_file ∧ e2.title = e.title ∧ e2.district = e.district
      ∧ e2.appearances = e.appearances
          ++ (evs.filter (pkEv k)).map (fun ev => appearanceOf ev.mid ev.pat ev.secTitle ev.item)
      ∧ e2.attachments = e.attachments
          ++ (evs.filter (pkEv k)).flatMap (fun ev => attachmentEntries lk ev.mid ev.item) := by
  intro evs
  induction evs with
  | nil =>
    intro m e he
    exact ⟨e, he, rfl, rfl, rfl, by simp, by simp⟩
  | cons ev evs ih =>
    intro m e he
    rw [List.foldl_cons]
    cases hik : itemKey ev.item with
    | none =>
      have hstep : stepEv lk m ev = m := by simp only [stepEv, processItem, hik]
      have hpk : ¬ pkEv k ev = true := by simp [pkEv, hik]
      rw [hstep, List.filter_cons_of_neg hpk]
      exact ih m e he
    | some cf =>
      by_cases hcf : cf = k
      · rw [hcf] at hik
        have hpk : pkEv k ev = true := by simp [pkEv, hik]
        have hstep : stepEv lk m ev
            = setAgg k (updateEntry lk ev.mid ev.pat ev.secTitle ev.item e) m := by
          simp only [stepEv, processItem, hik, he, Option.getD_some]
        rw [hstep]
        obtain ⟨e2, hl2, hcf2, ht2, hd2, ha2, hat2⟩ :=
          ih (setAgg k (updateEntry lk ev.mid ev.pat ev.secTitle ev.item e) m)
            (updateEntry lk ev.mid ev.pat ev.secTitle ev.item e)
            (lookupAgg_setAgg_self k _ m)
        refine ⟨e2, hl2, hcf2, ht2, hd2, ?_, ?_⟩
        · rw [ha2, List.filter_cons_of_pos hpk, List.map_cons]
          show (e.appearances ++ [appearanceOf ev.mid ev.pat ev.secTitle ev.item]) ++ _ = _
          rw [List.append_assoc]
          rfl
        · rw [hat2, List.filter_cons_of_pos hpk, List.flatMap_cons]
          show (e.attachments ++ attachmentEntries lk ev.mid ev.item) ++ _ = _
          rw [List.append_assoc]
      · have hpk : ¬ pkEv k ev = true := by simp [pkEv, hik, hcf]
        have hstep : stepEv lk m ev
            = setAgg cf (updateEntry lk ev.mid ev.pat ev.secTitle ev.item
                ((lookupAgg cf m).getD (newEntry ev.item cf))) m := by
          simp only [stepEv, processItem, hik]
        rw [hstep, List.filter_cons_of_neg hpk]
        exact ih _ e (by rw [lookupAgg_setAgg_other k cf _ hcf m]; exact he)

theorem foldl_step_create (lk : LK) (k : List Char) :
    ∀ (evs : List Ev) (m : AggMap), lookupAgg k m = none →
    ((evs.filter (pkEv k) = [] → lookupAgg k (evs.foldl (stepEv lk) m) = none)
    ∧ (∀ ev0 rest, evs.filter (pkEv k) = ev0 :: rest →
      ∃ e2, lookupAgg k (evs.foldl (stepEv lk) m) = some e2
        ∧ e2.council_file = k
        ∧ e2.title = pyStrGet ev0.item.title ∧ e2.district = pyStrGet ev0.item.district
        ∧ e2.appearances = (evs.filter (pkEv k)).map
            (fun ev => appearanceOf ev.mid ev.pat ev.secTitle ev.item)
        ∧ e2.attachments = (evs.filter (pkEv k)).flatMap
            (fun ev => attachmentEntries lk ev.mid ev.item))) := by
  intro evs
  induction evs with
  | nil =>
    intro m hm
    constructor
    · intro _; exact hm
    · intro ev0 rest h; cases h
  | cons ev evs ih =>
    intro m hm
    cases hik : itemKey ev.item with
    | none =>
      have hstep : stepEv lk m ev = m := by simp only [stepEv, processItem, hik]
      have hpk : ¬ pkEv k ev = true := by simp [pkEv, hik]
      rw [List.foldl_cons, hstep]
      constructor
      · intro hfil
        rw [List.filter_cons_of_neg hpk] at hfil
        exact (ih m hm).1 hfil
      · intro ev0 rest hfil
        rw [List.filter_cons_of_neg hpk] at hfil
        obtain ⟨e2, h1, h2, h3, h4, h5, h6⟩ := (ih m hm).2 ev0 rest hfil
        rw [List.filter_cons_of_neg hpk]
        exact ⟨e2, h1, h2, h3, h4, h5, h6⟩
    | some cf =>
      by_cases hcf : cf = k
      · rw [hcf] at hik
        have hpk : pkEv k ev = true := by simp [pkEv, hik]
        have hstep : stepEv lk m ev
            = setAgg k (updateEntry lk ev.mid ev.pat ev.secTitle ev.item
                (newEntry ev.item k)) m := by
          simp only [stepEv, processItem, hik, hm, Option.getD_none]
        constructor
        · intro hfil
          rw [List.filter_cons_of_pos hpk] at hfil
          cases hfil
        · intro ev0 rest hfil
          rw [List.filter_cons_of_pos hpk] at hfil
          injection hfil with hev0 hrest
          subst hev0
          rw [List.foldl_cons, hstep]
          obtain ⟨e2, hl2, hcf2, ht2, hd2, ha2, hat2⟩ :=
            foldl_step_preserve lk k evs
              (setAgg k (updateEntry lk ev.mid ev.pat ev.secTitle ev.item
                (newEntry ev.item k)) m)
              (updateEntry lk ev.mid ev.pat ev.secTitle ev.item (newEntry ev.item k))
              (lookupAgg_setAgg_self k _ m)
          refine ⟨e2, hl2, hcf2, ht2, hd2, ?_, ?_⟩
          · rw [ha2, List.filter_cons_of_pos hpk, List.map_cons]
            show ([] ++ [appearanceOf ev.mid ev.pat ev.secTitle ev.item]) ++ _ = _
            rw [List.nil_append, List.singleton_append]
          · rw [hat2, List.filter_cons_of_pos hpk, List.flatMap_cons]
            show ([] ++ attachmentEntries lk ev.mid ev.item) ++ _ = _
            rw [List.nil_append]
      · have hpk : ¬ pkEv k ev = true := by simp [pkEv, hik, hcf]
        have hstep : stepEv lk m ev
            = setAgg cf (updateEntry lk ev.mid ev.pat ev.secTitle ev.item
                ((lookupAgg cf m).getD (newEntry ev.item cf))) m := by
          simp only [stepEv, processItem, hik]
        have hm2 : lookupAgg k (setAgg cf ((updateEntry lk ev.mid ev.pat ev.secTitle ev.item
            ((lookupAgg cf m).getD (newEntry ev.item cf)))) m) = none := by
          rw [lookupAgg_setAgg_other k cf _ hcf m]; exact hm
        rw [List.foldl_cons, hstep]
        constructor
        · intro hfil
          rw [List.filter_cons_of_neg hpk] at hfil
          exact (ih _ hm2).1 hfil
        · intro ev0 rest hfil
          rw [List.filter_cons_of_neg hpk] at hfil
          obtain ⟨e2, h1, h2, h3, h4, h5, h6⟩ := (ih _ hm2).2 ev0 rest hfil
          rw [List.filter_cons_of_neg hpk]
          exact ⟨e2, h1, h2, h3, h4, h5, h6⟩

theorem filter_eq_cons_of_find? (p : α → Bool) :
    ∀ (l : List α) (a : α), l.find? p = some a → ∃ rest, l.filter p = a :: rest := by
  intro l
  induction l with
  | nil => intro a h; cases h
  | cons x xs ih =>
    intro a h
    by_cases hp : p x = true
    · rw [List.find?_cons_of_pos _ hp] at h
      injection h with h
      subst h
      exact ⟨xs.filter p, List.filter_cons_of_pos hp⟩
    · rw [List.find?_cons_of_neg _ hp] at h
      obtain ⟨rest, hr⟩ := ih a h
      exact ⟨rest, by rw [List.filter_cons_of_neg hp, hr]⟩

/-- C3: for every council file, the aggregate's title and district are those
captured from the first item occurrence (in the aggregator's traversal order)
bearing that council file, and are never overwritten by later appearances. -/
theorem C3_first_write_wins (lk : LK) (ags : List AgendaDoc) (k : List Char) (ev0 : Ev)
    (hfind : (eventsOf ags).find? (pkEv k) = some ev0) :
    ∃ fa, fa ∈ aggregate_council_files lk ags ∧ fa.council_file = k
      ∧ fa.title = pyStrGet ev0.item.title ∧ fa.district = pyStrGet ev0.item.district := by
  obtain ⟨rest, hfil⟩ := filter_eq_cons_of_find? (pkEv k) (eventsOf ags) ev0 hfind
  obtain ⟨e2, hlk, hcf, htitle, hdist, _, _⟩ :=
    (foldl_step_create lk k (eventsOf ags) [] rfl).2 ev0 rest hfil
  rw [← buildAggMap_eq] at hlk
  refine ⟨finalizeAgg e2, ?_, hcf, htitle, hdist⟩
  rw [aggregate_council_files]
  exact List.mem_map_of_mem (fun p => finalizeAgg p.2) (lookupAgg_mem k _ e2 hlk)

/-- Witness for C3 on the spec's two-meeting first-write-wins instance:
first meeting titled `Foo` in `CD 5`, later meeting blank-titled in `CD 7`;
the aggregate keeps `Foo` and `CD 5`. -/
theorem C3_witness :
    ∃ fa, fa ∈ aggregate_council_files emptyLK [meetingFoo, meetingBlank]
      ∧ fa.council_file = "25-0160-S93".data
      ∧ fa.title = "Foo".data ∧ fa.district = "CD 5".data :=
  C3_first_write_wins emptyLK [meetingFoo, meetingBlank] "25-0160-S93".data evFoo (by decide)

/-- C4 (amended): for every council file that occurs at all, the aggregate's
attachments list is exactly the concatenation, over its item occurrences in
traversal order, of one enriched entry per attachment whose URL yields a
nonempty history id — one entry per (attachment, meeting) occurrence with no
deduplication by history id — while attachments whose URL yields no history
id, or an empty one, contribute nothing; concretely, the same history id
appearing in two meetings produces two entries. -/
theorem C4_attachment_handling :
    (∀ (lk : LK) (ags : List AgendaDoc) (k : List Char) (ev0 : Ev) (rest : List Ev),
      (eventsOf ags).filter (pkEv k) = ev0 :: rest →
      ∃ fa, fa ∈ aggregate_council_files lk ags ∧ fa.council_file = k
        ∧ fa.attachments = ((eventsOf ags).filter (pkEv k)).flatMap
            (fun ev => attachmentEntries lk ev.mid ev.item))
    ∧ ((aggregate_council_files (storeLookup storeAB) [meetingAB, meetingAB2]).map
        (fun fa => fa.attachments.map (fun a => (a.historyId, a.meeting_id))))
      = [[("AB".data, (1 : Int)), ("AB".data, (2 : Int))]] := by
  constructor
  · intro lk ags k ev0 rest hfil
    obtain ⟨e2, hlk, hcf, _, _, _, hatt⟩ :=
      (foldl_step_create lk k (eventsOf ags) [] rfl).2 ev0 rest hfil
    rw [← buildAggMap_eq] at hlk
    refine ⟨finalizeAgg e2, ?_, hcf, hatt⟩
    rw [aggregate_council_files]
    exact List.mem_map_of_mem (fun p => finalizeAgg p.2) (lookupAgg_mem k _ e2 hlk)
  · decide

/-- Witness for C4 (amended) on the concrete two-meeting same-history-id
instance. -/
theorem C4_witness :
    ∃ fa, fa ∈ aggregate_council_files (storeLookup storeAB) [meetingAB, meetingAB2]
      ∧ fa.council_file = "25-0001".data
      ∧ fa.attachments
          = ((eventsOf [meetingAB, meetingAB2]).filter (pkEv "25-0001".data)).flatMap
              (fun ev => attachmentEntries (storeLookup storeAB) ev.mid ev.item) :=
  C4_attachment_handling.1 (storeLookup storeAB) [meetingAB, meetingAB2] "25-0001".data
    evAB1 [evAB2] (by decide)

/-- Counterexample to C4 as stated: the URL `...historyId=` yields a history
id (the empty token), yet the attachment is dropped — no entry is appended. -/
theorem C4_counterexample :
    extract_history_id_from_url "/Portal/ViewAttachment?historyId=".data = some []
    ∧ (aggregate_council_files emptyLK [meetingEmptyHid]).map (fun fa => fa.attachments)
      = [[]] := by
  exact ⟨by decide, by decide⟩

/-! ### Enrichment invariant -/

theorem attachmentEntries_prop (lk : LK) (mid : Int) (item : ItemRec) :
    ∀ att ∈ attachmentEntries lk mid item,
      att.has_summary = (lk att.historyId).isSome
      ∧ att.summary.isSome = att.has_summary
      ∧ att.processing.isSome = att.has_summary := by
  intro att hatt
  rw [attachmentEntries] at hatt
  obtain ⟨a0, _, hfa⟩ := List.mem_filterMap.mp hatt
  cases hx : extract_history_id_from_url a0.url with
  | none => rw [hx] at hfa; cases hfa
  | some hid =>
    rw [hx] at hfa
    have hfa2 : (if hid.isEmpty = true then none
        else some (mkEnriched lk mid a0 hid)) = some att := hfa
    by_cases hemp : hid.isEmpty = true
    · rw [if_pos hemp] at hfa2; cases hfa2
    · rw [if_neg hemp] at hfa2
      injection hfa2 with hfa2
      rw [← hfa2, mkEnriched]
      cases hlk : lk hid with
      | some s => simp [hlk]
      | none => simp [hlk]

theorem step_att_invariant (lk : LK) :
    ∀ (evs : List Ev) (m : AggMap),
    (∀ p ∈ m, ∀ att ∈ (p : (List Char × CFEntry)).2.attachments,
      att.has_summary = (lk att.historyId).isSome
      ∧ att.summary.isSome = att.has_summary
      ∧ att.processing.isSome = att.has_summary) →
    ∀ p ∈ evs.foldl (stepEv lk) m, ∀ att ∈ (p : (List Char × CFEntry)).2.attachments,
      att.has_summary = (lk att.historyId).isSome
      ∧ att.summary.isSome = att.has_summary
      ∧ att.processing.isSome = att.has_summary := by
  intro evs
  induction evs with
  | nil => intro m hm; exact hm
  | cons ev evs ih =>
    intro m hm
    rw [List.foldl_cons]
    apply ih
    intro p hp att hatt
    cases hik : itemKey ev.item with
    | none =>
      have hstep : stepEv lk m ev = m := by simp only [stepEv, processItem, hik]
      rw [hstep] at hp
      exact hm p hp att hatt
    | some cf =>
      have hstep : stepEv lk m ev
          = setAgg cf (updateEntry lk ev.mid ev.pat ev.secTitle ev.item
              ((lookupAgg cf m).getD (newEntry ev.item cf))) m := by
        simp only [stepEv, processItem, hik]
      rw [hstep] at hp
      rcases mem_setAgg cf _ m p hp with hq | hq
      · subst hq
        have hatt2 : att ∈ ((lookupAgg cf m).getD (newEntry ev.item cf)).attachments
            ++ attachmentEntries lk ev.mid ev.item := hatt
        rcases List.mem_append.mp hatt2 with hl | hr
        · cases hlkp : lookupAgg cf m with
          | none =>
            rw [hlkp] at hl
            cases hl
          | some e0 =>
            rw [hlkp] at hl
            exact hm (cf, e0) (lookupAgg_mem cf m e0 hlkp) att hl
        · exact attachmentEntries_prop lk ev.mid ev.item att hr
      · exact hm p hq att hatt

/-- C10: for every enriched attachment entry the aggregator emits,
`has_summary` is true iff the entry's history id is a key of the loaded
Summary-Store mapping, and the `summary`/`processing` fields are present
exactly when `has_summary` is true. -/
theorem C10_enrichment_invariant (ss : List PdfSummary) (ags : List AgendaDoc)
    (fa : FinalAggregate) (att : EnrichedAttachment)
    (hfa : fa ∈ aggregate_council_files (storeLookup ss) ags)
    (hatt : att ∈ fa.attachments) :
    (att.has_summary = true ↔ (storeLookup ss att.historyId).isSome = true)
    ∧ (att.summary.isSome = true ↔ att.has_summary = true)
    ∧ (att.processing.isSome = true ↔ att.has_summary = true) := by
  rw [aggregate_council_files] at hfa
  obtain ⟨p, hpmem, hp⟩ := List.mem_map.mp hfa
  rw [← hp] at hatt
  have hatt2 : att ∈ p.2.attachments := hatt
  rw [buildAggMap_eq] at hpmem
  have hinv := step_att_invariant (storeLookup ss) (eventsOf ags) []
    (by intro q hq; cases hq) p hpmem att hatt2
  obtain ⟨h1, h2, h3⟩ := hinv
  exact ⟨by rw [h1], by rw [h2], by rw [h3]⟩

/-- Witness for C10 at the concrete enriched attachment of the `storeAB`
instance. -/
theorem C10_witness :
    (attAB.has_summary = true ↔ (storeLookup storeAB attAB.historyId).isSome = true)
    ∧ (attAB.summary.isSome = true ↔ attAB.has_summary = true)
    ∧ (attAB.processing.isSome = true ↔ attAB.has_summary = true) :=
  C10_enrichment_invariant storeAB [meetingAB] faAB attAB (by decide) (by decide)

/-! ### Summary-store load-order sensitivity -/

theorem find?_eq_head?_filter (p : α → Bool) : ∀ l : List α, l.find? p = (l.filter p).head? := by
  intro l
  induction l with
  | nil => rfl
  | cons a l ih =>
    by_cases hp : p a = true
    · rw [List.find?_cons_of_pos _ hp, List.filter_cons_of_pos hp]
      rfl
    · rw [List.find?_cons_of_neg _ hp, List.filter_cons_of_neg hp, ih]

theorem perm_eq_of_length_le_one {l1 l2 : List α} (hperm : l1.Perm l2)
    (hlen : l1.length ≤ 1) : l1 = l2 := by
  cases l1 with
  | nil => rw [(hperm.symm).eq_nil]
  | cons a l1 =>
    have h1 : l1 = [] := by
      rw [List.length_cons] at hlen
      rw [← List.length_eq_zero]
      omega
    subst h1
    have h2 : l2.length = 1 := by rw [← hperm.length_eq]; rfl
    obtain ⟨b, hb⟩ := List.length_eq_one.mp h2
    subst hb
    have : a ∈ [b] := hperm.mem_iff.mp (List.mem_singleton_self a)
    rw [List.mem_singleton] at this
    rw [this]

theorem filter_key_length_le_one (k : List Char) :
    ∀ ss : List PdfSummary, ((ss.map (fun r => r.historyId)).Nodup) →
    (ss.filter (fun r => r.historyId == k)).length ≤ 1 := by
  intro ss
  induction ss with
  | nil => intro _; simp
  | cons r ss ih =>
    intro hnd
    rw [List.map_cons, List.nodup_cons] at hnd
    obtain ⟨hnot, hnd2⟩ := hnd
    by_cases hp : (r.historyId == k) = true
    · rw [@List.filter_cons_of_pos _ (fun r2 => r2.historyId == k) r ss hp]
      have hk : r.historyId = k := by simpa using hp
      have hnil : ss.filter (fun r2 => r2.historyId == k) = [] := by
        rw [List.filter_eq_nil_iff]
        intro a ha hcon
        apply hnot
        rw [List.mem_map]
        refine ⟨a, ha, ?_⟩
        have hak : a.historyId = k := by simpa using hcon
        rw [hak, hk]
      rw [hnil]
      simp
    · rw [@List.filter_cons_of_neg _ (fun r2 => r2.historyId == k) r ss hp]
      exact ih hnd2

theorem storeLookup_congr (s1 s2 : List PdfSummary) (hperm : s1.Perm s2)
    (hnd : (s1.map (fun r => r.historyId)).Nodup) : storeLookup s1 = storeLookup s2 := by
  funext k
  rw [storeLookup, storeLookup, find?_eq_head?_filter, find?_eq_head?_filter,
    List.filter_reverse, List.filter_reverse]
  have hfil : s1.filter (fun r => r.historyId == k) = s2.filter (fun r => r.historyId == k) := by
    apply perm_eq_of_length_le_one (hperm.filter _)
    exact filter_key_length_le_one k s1 hnd
  rw [hfil]

/-- C2 (amended): for a fixed list of meeting documents, the aggregator's
output depends on the Summary Store only through its key-to-record mapping:
when the store's records carry pairwise-distinct history ids, any two load
orders of the same records produce identical CouncilFileAggregate lists.
(With duplicate history ids the loader is last-wins over unspecified directory
order, and the output can differ between load orders.) -/
theorem C2_aggregation_determinism (ags : List AgendaDoc) (s1 s2 : List PdfSummary)
    (hperm : s1.Perm s2) (hnd : (s1.map (fun r => r.historyId)).Nodup) :
    aggregate_council_files (storeLookup s1) ags
      = aggregate_council_files (storeLookup s2) ags := by
  rw [storeLookup_congr s1 s2 hperm hnd]

/-- Witness for C2 (amended): two load orders of a duplicate-free store give
identical aggregates. -/
theorem C2_witness :
    aggregate_council_files (storeLookup [freeSum1, freeSum2]) [meetingAB]
      = aggregate_council_files (storeLookup [freeSum2, freeSum1]) [meetingAB] :=
  C2_aggregation_determinism [meetingAB] [freeSum1, freeSum2] [freeSum2, freeSum1]
    (by decide) (by decide)

/-- Counterexample to C2 as stated: with two records sharing a history id
(the same fixed Summary-Store contents), the two directory iteration orders
load different mappings and the emitted aggregates differ byte-for-byte. -/
theorem C2_counterexample :
    ([dupSum1, dupSum2].Perm [dupSum2, dupSum1])
    ∧ aggregate_council_files (storeLookup [dupSum1, dupSum2]) [meetingAB]
        ≠ aggregate_council_files (storeLookup [dupSum2, dupSum1]) [meetingAB] := by
  exact ⟨by decide, by decide⟩
